import Mathlib

/-
Verification of the gossip broadcast engine in src/bin/broadcast.rs.

The Rust state struct `State` (messages : HashSet<u64>, messages_list : Vec<u64>,
already_send : HashMap<String, usize>, neighbours : Vec<String>) is embedded
shallowly: values (u64, only compared for equality) become Nat, the hash set
becomes a list used solely for membership, and the hash map becomes an
association list with HashMap-style get / get_mut-assign / insert operations.
Rust slicing panics are modelled by Option: `&slice[d..]` is `none` when
`d > slice.len()`, and the Topology handler's `.unwrap()` is `none` when the
key is absent.
-/

namespace Broadcast

/-- Association-list lookup, modelling `HashMap::get`: the value stored at the
first entry whose key matches, if any. -/
def getEntry {β : Type} : List (String × β) → String → Option β
  | [], _ => none
  | (k, v) :: rest, n => if k = n then some v else getEntry rest n

/-- Replacement of the value at an existing key, modelling assignment through
`HashMap::get_mut`: the first entry with the given key gets the new value. -/
def putEntry {β : Type} : List (String × β) → String → β → List (String × β)
  | [], _, _ => []
  | (k, v) :: rest, n, w =>
    if k = n then (k, w) :: rest else (k, v) :: putEntry rest n w

/-- The node state from src/bin/broadcast.rs (struct State). -/
structure State where
  messages : List Nat
  messages_list : List Nat
  already_send : List (String × Nat)
  neighbours : List String
deriving DecidableEq

/-- `State::default()`: everything empty. -/
def initState : State := ⟨[], [], [], []⟩

/-- `State::insert`: skip when the value is already in the `messages` set,
otherwise add it to the set and append it to `messages_list`. -/
def State.insert (s : State) (value : Nat) : State :=
  if value ∈ s.messages then s
  else { s with messages := value :: s.messages,
                messages_list := s.messages_list ++ [value] }

/-- `State::take_all`: a copy of `messages_list`. -/
def State.take_all (s : State) : List Nat := s.messages_list

/-- `State::take_node`: read the watermark for the node (0 when absent) and
slice `messages_list` from it. Rust's `&slice[d..]` panics when `d` exceeds
the length, modelled by `none`. -/
def State.take_node (s : State) (node_id : String) : Option (Nat × List Nat) :=
  let drop_first := (getEntry s.already_send node_id).getD 0
  if drop_first ≤ s.messages_list.length then
    some (drop_first, s.messages_list.drop drop_first)
  else none

/-- `State::update_node`: compare-and-swap-style cursor advance. An existing
entry is bumped by `len` only when it still equals `prev_len`; a missing entry
is created with value `len` only when `prev_len` is 0. -/
def State.update_node (s : State) (node_id : String) (prev_len len : Nat) : State :=
  match getEntry s.already_send node_id with
  | some v =>
    if v = prev_len then
      { s with already_send := putEntry s.already_send node_id (v + len) }
    else s
  | none =>
    if prev_len = 0 then
      { s with already_send := (node_id, len) :: s.already_send }
    else s

/-- The effective watermark of a neighbour: stored value, or 0 when absent
(the `unwrap_or(&0)` in take_node). -/
def wmOf (s : State) (node_id : String) : Nat :=
  (getEntry s.already_send node_id).getD 0

/-- The `Request::Update` handler body: insert every received value in order. -/
def insertAll (s : State) (vs : List Nat) : State := vs.foldl State.insert s

/-- The `Request::Topology` handler body:
`topology.insert(node_id, vec![]).unwrap()` returns the previous value at
this node's key and panics (`none`) when the key is absent; the returned
neighbour list is stored into `State.neighbours`. -/
def processTopology (s : State) (node_id : String)
    (topology : List (String × List String)) : Option State :=
  (getEntry topology node_id).map fun nb => { s with neighbours := nb }

/- ----------------------------------------------------------------- -/
/- Basic lemmas about the assoc-list operations and the State ops.   -/
/- ----------------------------------------------------------------- -/
/-- Position of the first occurrence of a value in the log. -/
def posOf (v : Nat) : List Nat → Nat
  | [] => 0
  | x :: rest => if x = v then 0 else posOf v rest + 1

/- ----------------------------------------------------------------- -/
/- The propagation round (BroadcastHandler::update_neighbours).      -/
/- ----------------------------------------------------------------- -/

/-- The handler-level state: the AtomicU64 `generation`, the current value of
the `watch` channel (what waiters observe), and the locked `State`. -/
structure HState where
  gen : Nat
  watch : Nat
  st : State
deriving DecidableEq

/-- `BroadcastHandler::new()`: generation 0, watch channel created with 0. -/
def initHandler : HState := ⟨0, 0, initState⟩

/-- First loop of `update_neighbours`: for each neighbour take a snapshot
`(prev_len, messages)` and issue the transfer RPC. A panic inside `take_node`
is `none`; a failed `runtime.rpc(..).await?` (per-neighbour `sendOk`) aborts
the pass with an error before any cursor is updated, modelled by the Bool
`false` with no collected snapshots. -/
def snapPhase (st : State) (sendOk : String → Bool) :
    List String → Option (List (String × Nat × Nat) × Bool)
  | [] => some ([], true)
  | n :: rest =>
    match st.take_node n with
    | none => none
    | some (prev_len, msgs) =>
      if sendOk n then
        (snapPhase st sendOk rest).map fun p => ((n, prev_len, msgs.length) :: p.1, p.2)
      else some ([], false)

/-- Second loop of `update_neighbours`: await each RPC in order; on success
apply `update_node`, on the first failure (`rpc.await?`) return early with an
error, leaving the remaining cursors untouched. -/
def updatePhase (replyOk : String → Bool) :
    State → List (String × Nat × Nat) → State × Bool
  | st, [] => (st, true)
  | st, (n, prev_len, len) :: rest =>
    if replyOk n then updatePhase replyOk (st.update_node n prev_len len) rest
    else (st, false)

/-- `BroadcastHandler::update_neighbours`: `next_generation()` bumps the
atomic counter at the very start; the watch channel is sent the new
generation only when every RPC has resolved successfully (the `?` operators
return early otherwise). The Bool records whether the pass returned `Ok`. -/
def update_neighbours (h : HState) (ns : List String)
    (sendOk replyOk : String → Bool) : Option (HState × Bool) :=
  match snapPhase h.st sendOk ns with
  | none => none
  | some (_, false) => some (⟨h.gen + 1, h.watch, h.st⟩, false)
  | some (snaps, true) =>
    match updatePhase replyOk h.st snaps with
    | (st', true) => some (⟨h.gen + 1, h.gen + 1, st'⟩, true)
    | (st', false) => some (⟨h.gen + 1, h.watch, st'⟩, false)

/-- The timer task in `try_main` discards the result of `update_neighbours`
(`let _ = ...`), so an error never escapes to any client. -/
def timerTick (h : HState) (ns : List String)
    (sendOk replyOk : String → Bool) : Option HState :=
  (update_neighbours h ns sendOk replyOk).map Prod.fst

/- ----------------------------------------------------------------- -/
/- Lock-granularity transition system over the shared State.         -/
/- ----------------------------------------------------------------- -/

/-- A system configuration: the locked `State` plus the snapshots taken by
in-flight propagation passes whose `update_node` has not run yet. -/
structure Sys where
  st : State
  pending : List (String × Nat × Nat)
deriving DecidableEq

/-- One lock-protected operation of the program: a client or peer insert, a
round taking a snapshot via `take_node` (its RPC becomes pending), a round
applying `update_node` with the values of one pending snapshot, a pending
RPC failing (its snapshot is dropped, no cursor change), or the Topology
handler overwriting the neighbour list. -/
inductive SysStep : Sys → Sys → Prop
  | insert (σ : Sys) (v : Nat) : SysStep σ ⟨σ.st.insert v, σ.pending⟩
  | snap (σ : Sys) (n : String) (w : Nat) (d : List Nat)
      (h : σ.st.take_node n = some (w, d)) :
      SysStep σ ⟨σ.st, (n, w, d.length) :: σ.pending⟩
  | upd (σ : Sys) (n : String) (w l : Nat) (h : (n, w, l) ∈ σ.pending) :
      SysStep σ ⟨σ.st.update_node n w l, σ.pending.erase (n, w, l)⟩
  | dropRpc (σ : Sys) (p : String × Nat × Nat) (h : p ∈ σ.pending) :
      SysStep σ ⟨σ.st, σ.pending.erase p⟩
  | topo (σ : Sys) (nb : List String) :
      SysStep σ ⟨{ σ.st with neighbours := nb }, σ.pending⟩

/-- Finitely many system steps. -/
inductive Steps : Sys → Sys → Prop
  | refl (σ : Sys) : Steps σ σ
  | tail {σ₁ σ₂ σ₃ : Sys} : Steps σ₁ σ₂ → SysStep σ₂ σ₃ → Steps σ₁ σ₃

/-- Reachability from the freshly created handler state. -/
def Reachable (σ : Sys) : Prop := Steps ⟨initState, []⟩ σ

/-- The value-store and cursor-table invariant. -/
def SysInv (σ : Sys) : Prop :=
  σ.st.messages_list.Nodup ∧
  (∀ v, v ∈ σ.st.messages ↔ v ∈ σ.st.messages_list) ∧
  (∀ n, wmOf σ.st n ≤ σ.st.messages_list.length) ∧
  (∀ p ∈ σ.pending, p.2.1 + p.2.2 ≤ σ.st.messages_list.length)

/-- `BroadcastHandler::wait_update`: `wait_for(|ts| *ts > old)` applied to
the successive values observed on the watch channel; returns the index of
the first observed value strictly greater than `old`, or never returns. -/
def wait_update (old : Nat) : List Nat → Option Nat
  | [] => none
  | v :: rest =>
    if old < v then some 0 else (wait_update old rest).map fun i => i + 1

/-- Events relevant to round synchronization: a round starting
(`next_generation` at the top of `update_neighbours`), a round completing
successfully (the watch send), a round aborting on a failed RPC, a client
submission (`State::insert` in the Broadcast arm), anything else. -/
inductive GLabel
  | roundStart
  | roundOk
  | roundFail
  | submit
  | other
deriving DecidableEq

/-- Generation-side state: the atomic counter, the watch channel value, and
the generation of the in-flight round of the (sequential) timer task. -/
structure GState where
  gen : Nat
  watch : Nat
  active : Option Nat
deriving DecidableEq

/-- Generation-side transitions of the program: `roundStart` increments the
atomic counter and records the new generation for the in-flight round;
`roundOk` publishes that generation on the watch channel; `roundFail` ends
the round without touching the watch channel; `submit` and `other` leave
this state alone. -/
inductive GStep : GState → GLabel → GState → Prop
  | start {σ : GState} (h : σ.active = none) :
      GStep σ GLabel.roundStart ⟨σ.gen + 1, σ.watch, some (σ.gen + 1)⟩
  | ok {σ : GState} {r : Nat} (h : σ.active = some r) :
      GStep σ GLabel.roundOk ⟨σ.gen, r, none⟩
  | fail {σ : GState} {r : Nat} (h : σ.active = some r) :
      GStep σ GLabel.roundFail ⟨σ.gen, σ.watch, none⟩
  | submit {σ : GState} : GStep σ GLabel.submit σ
  | other {σ : GState} : GStep σ GLabel.other σ

/-- A labelled run of generation-side transitions. -/
inductive GRun : GState → List GLabel → GState → Prop
  | nil (σ : GState) : GRun σ [] σ
  | cons {σ₁ : GState} {l : GLabel} {σ₂ : GState} {ls : List GLabel} {σ₃ : GState} :
      GStep σ₁ l σ₂ → GRun σ₂ ls σ₃ → GRun σ₁ (l :: ls) σ₃

/-- Whether the label list contains a round start. -/
def containsStart : List GLabel → Bool
  | [] => false
  | GLabel.roundStart :: _ => true
  | _ :: rest => containsStart rest

/-- Whether a round start occurs strictly after the (first) submission. -/
def hasStartAfterSubmit : List GLabel → Bool
  | [] => false
  | GLabel.submit :: rest => containsStart rest
  | _ :: rest => hasStartAfterSubmit rest

/-- Concrete neighbour names used by counterexamples and witnesses. -/
def nA : String := "a"

/-- A second concrete neighbour name. -/
def nB : String := "b"


theorem getEntry_putEntry_self {β : Type} (l : List (String × β)) (n : String) (w : β)
    (h : (getEntry l n).isSome) : getEntry (putEntry l n w) n = some w := by
  induction l with
  | nil => simp [getEntry] at h
  | cons kv rest ih =>
    obtain ⟨k, v⟩ := kv
    by_cases hk : k = n
    · simp [getEntry, putEntry, hk]
    · simp [getEntry, putEntry, hk] at h ⊢
      exact ih h

theorem getEntry_putEntry_ne {β : Type} (l : List (String × β)) (n m : String) (w : β)
    (h : m ≠ n) : getEntry (putEntry l n w) m = getEntry l m := by
  induction l with
  | nil => simp [putEntry]
  | cons kv rest ih =>
    obtain ⟨k, v⟩ := kv
    by_cases hk : k = n
    · subst hk
      simp [getEntry, putEntry, Ne.symm h]
    · simp [getEntry, putEntry, hk]
      by_cases hm : k = m <;> simp [hm, ih]

theorem update_node_messages (s : State) (n : String) (p l : Nat) :
    (s.update_node n p l).messages = s.messages := by
  unfold State.update_node
  cases getEntry s.already_send n <;> dsimp <;> split <;> rfl

theorem update_node_messages_list (s : State) (n : String) (p l : Nat) :
    (s.update_node n p l).messages_list = s.messages_list := by
  unfold State.update_node
  cases getEntry s.already_send n <;> dsimp <;> split <;> rfl

theorem update_node_neighbours (s : State) (n : String) (p l : Nat) :
    (s.update_node n p l).neighbours = s.neighbours := by
  unfold State.update_node
  cases getEntry s.already_send n <;> dsimp <;> split <;> rfl

theorem update_node_getEntry_ne (s : State) (n m : String) (p l : Nat) (h : m ≠ n) :
    getEntry (s.update_node n p l).already_send m = getEntry s.already_send m := by
  unfold State.update_node
  cases hg : getEntry s.already_send n with
  | some v =>
    dsimp
    split
    · exact getEntry_putEntry_ne _ _ _ _ h
    · rfl
  | none =>
    dsimp
    split
    · simp [getEntry, Ne.symm h]
    · rfl

theorem wmOf_update_node_self (s : State) (n : String) (p l : Nat) :
    wmOf (s.update_node n p l) n = if wmOf s n = p then p + l else wmOf s n := by
  unfold State.update_node wmOf
  cases hg : getEntry s.already_send n with
  | some v =>
    dsimp
    split
    · rename_i hv
      subst hv
      rw [getEntry_putEntry_self _ _ _ (by simp [hg])]
      simp [hg]
    · rename_i hv
      simp [hg, hv]
  | none =>
    dsimp
    split
    · rename_i hp
      simp [getEntry, hg, hp]
    · rename_i hp
      simp [hg, Ne.symm hp]

theorem wmOf_update_node_mono (s : State) (n k : String) (p l : Nat) :
    wmOf s k ≤ wmOf (s.update_node n p l) k := by
  by_cases hk : k = n
  · subst hk
    rw [wmOf_update_node_self]
    split
    · rename_i he
      rw [he]
      exact Nat.le_add_right _ _
    · exact Nat.le_refl _
  · unfold wmOf
    rw [update_node_getEntry_ne _ _ _ _ _ hk]

theorem insert_of_mem {s : State} {v : Nat} (h : v ∈ s.messages) :
    s.insert v = s := by
  unfold State.insert
  rw [if_pos h]

theorem insert_messages_of_not_mem {s : State} {v : Nat} (h : v ∉ s.messages) :
    (s.insert v).messages = v :: s.messages := by
  unfold State.insert
  rw [if_neg h]

theorem insert_list_of_not_mem {s : State} {v : Nat} (h : v ∉ s.messages) :
    (s.insert v).messages_list = s.messages_list ++ [v] := by
  unfold State.insert
  rw [if_neg h]

theorem insert_messages_list (s : State) (v : Nat) :
    (s.insert v).messages_list = s.messages_list ∨
    (s.insert v).messages_list = s.messages_list ++ [v] := by
  unfold State.insert
  split
  · exact Or.inl rfl
  · exact Or.inr rfl

theorem insert_already_send (s : State) (v : Nat) :
    (s.insert v).already_send = s.already_send := by
  unfold State.insert
  split <;> rfl

theorem insert_neighbours (s : State) (v : Nat) :
    (s.insert v).neighbours = s.neighbours := by
  unfold State.insert
  split <;> rfl

theorem insertAll_already_send (s : State) (vs : List Nat) :
    (insertAll s vs).already_send = s.already_send := by
  induction vs generalizing s with
  | nil => rfl
  | cons v rest ih =>
    show (insertAll (s.insert v) rest).already_send = _
    rw [ih, insert_already_send]

theorem insert_messages_list_extend (s : State) (v : Nat) :
    ∃ t, (s.insert v).messages_list = s.messages_list ++ t := by
  rcases insert_messages_list s v with h | h
  · exact ⟨[], by simp [h]⟩
  · exact ⟨[v], h⟩

theorem insertAll_messages_list_extend (s : State) (vs : List Nat) :
    ∃ t, (insertAll s vs).messages_list = s.messages_list ++ t := by
  induction vs generalizing s with
  | nil => exact ⟨[], by simp [insertAll]⟩
  | cons v rest ih =>
    obtain ⟨t₁, h₁⟩ := insert_messages_list_extend s v
    obtain ⟨t₂, h₂⟩ := ih (s.insert v)
    exact ⟨t₁ ++ t₂, by
      show (insertAll (s.insert v) rest).messages_list = _
      rw [h₂, h₁, List.append_assoc]⟩


theorem posOf_append_of_mem (v : Nat) (l₁ l₂ : List Nat) (h : v ∈ l₁) :
    posOf v (l₁ ++ l₂) = posOf v l₁ := by
  induction l₁ with
  | nil => cases h
  | cons x rest ih =>
    by_cases hx : x = v
    · simp [posOf, hx]
    · rcases List.mem_cons.mp h with h' | h'
      · exact absurd h'.symm hx
      · simp [posOf, hx, ih h']

theorem steps_trans {σ₁ σ₂ σ₃ : Sys} (h₁ : Steps σ₁ σ₂) (h₂ : Steps σ₂ σ₃) :
    Steps σ₁ σ₃ := by
  induction h₂ with
  | refl => exact h₁
  | tail _ hs ih => exact Steps.tail ih hs

theorem take_node_eq_of_le (s : State) (n : String)
    (h : wmOf s n ≤ s.messages_list.length) :
    s.take_node n = some (wmOf s n, s.messages_list.drop (wmOf s n)) := by
  unfold State.take_node
  simp only [wmOf] at h ⊢
  rw [if_pos h]

theorem take_node_some_elim (s : State) (n : String) (w : Nat) (d : List Nat)
    (h : s.take_node n = some (w, d)) :
    w = wmOf s n ∧ w ≤ s.messages_list.length ∧ d = s.messages_list.drop w := by
  simp only [State.take_node] at h
  split at h
  · rename_i hle
    injection h with h'
    injection h' with h1 h2
    subst h1
    exact ⟨rfl, hle, h2.symm⟩
  · cases h

theorem sysInv_step {σ σ' : Sys} (hstep : SysStep σ σ') (hinv : SysInv σ) :
    SysInv σ' := by
  obtain ⟨hnd, hset, hwm, hpend⟩ := hinv
  cases hstep with
  | insert v =>
    by_cases hv : v ∈ σ.st.messages
    · rw [show (⟨σ.st.insert v, σ.pending⟩ : Sys) = ⟨σ.st, σ.pending⟩ by
        rw [insert_of_mem hv]]
      exact ⟨hnd, hset, hwm, hpend⟩
    · have hvl : v ∉ σ.st.messages_list := fun hc => hv ((hset v).mpr hc)
      refine ⟨?_, ?_, ?_, ?_⟩
      · show (σ.st.insert v).messages_list.Nodup
        rw [insert_list_of_not_mem hv]
        simp [List.nodup_append, hnd, hvl]
      · intro u
        show u ∈ (σ.st.insert v).messages ↔ u ∈ (σ.st.insert v).messages_list
        rw [insert_messages_of_not_mem hv, insert_list_of_not_mem hv]
        have := hset u
        simp only [List.mem_cons, List.mem_append, List.mem_singleton]
        tauto
      · intro n
        show wmOf (σ.st.insert v) n ≤ (σ.st.insert v).messages_list.length
        unfold wmOf
        rw [insert_already_send, insert_list_of_not_mem hv]
        simp only [List.length_append, List.length_singleton]
        exact Nat.le_trans (hwm n) (Nat.le_add_right _ _)
      · intro p hp
        show _ ≤ (σ.st.insert v).messages_list.length
        rw [insert_list_of_not_mem hv]
        simp only [List.length_append, List.length_singleton]
        exact Nat.le_trans (hpend p hp) (Nat.le_add_right _ _)
  | snap n w d h =>
    obtain ⟨hw, hle, hd⟩ := take_node_some_elim _ _ _ _ h
    refine ⟨hnd, hset, hwm, ?_⟩
    intro p hp
    rcases List.mem_cons.mp hp with hp' | hp'
    · subst hp'
      show w + d.length ≤ σ.st.messages_list.length
      rw [hd, List.length_drop]
      omega
    · exact hpend p hp'
  | upd n w l h =>
    refine ⟨?_, ?_, ?_, ?_⟩
    · show (σ.st.update_node n w l).messages_list.Nodup
      rwa [update_node_messages_list]
    · intro v
      show v ∈ (σ.st.update_node n w l).messages ↔ _
      rw [update_node_messages, update_node_messages_list]
      exact hset v
    · intro k
      show wmOf (σ.st.update_node n w l) k ≤ (σ.st.update_node n w l).messages_list.length
      rw [update_node_messages_list]
      by_cases hk : k = n
      · subst hk
        rw [wmOf_update_node_self]
        split
        · exact hpend _ h
        · exact hwm k
      · unfold wmOf
        rw [update_node_getEntry_ne _ _ _ _ _ hk]
        exact hwm k
    · intro p hp
      show _ ≤ (σ.st.update_node n w l).messages_list.length
      rw [update_node_messages_list]
      exact hpend p (List.mem_of_mem_erase hp)
  | dropRpc p h =>
    exact ⟨hnd, hset, hwm, fun q hq => hpend q (List.mem_of_mem_erase hq)⟩
  | topo nb =>
    exact ⟨hnd, hset, hwm, hpend⟩

theorem sysInv_init : SysInv ⟨initState, []⟩ := by
  refine ⟨List.nodup_nil, ?_, ?_, ?_⟩
  · intro v
    simp [initState]
  · intro n
    simp [wmOf, initState, getEntry]
  · intro p hp
    cases hp

theorem sysInv_steps {σ σ' : Sys} (hs : Steps σ σ') (hinv : SysInv σ) :
    SysInv σ' := by
  induction hs with
  | refl => exact hinv
  | tail _ hstep ih => exact sysInv_step hstep ih

theorem sysInv_reachable {σ : Sys} (h : Reachable σ) : SysInv σ :=
  sysInv_steps h sysInv_init

theorem sysStep_list_extend {σ σ' : Sys} (h : SysStep σ σ') :
    ∃ t, σ'.st.messages_list = σ.st.messages_list ++ t := by
  cases h with
  | insert v => exact insert_messages_list_extend _ v
  | snap n w d h => exact ⟨[], by simp⟩
  | upd n w l h => exact ⟨[], by simp [update_node_messages_list]⟩
  | dropRpc p h => exact ⟨[], by simp⟩
  | topo nb => exact ⟨[], by simp⟩

theorem steps_list_extend {σ σ' : Sys} (h : Steps σ σ') :
    ∃ t, σ'.st.messages_list = σ.st.messages_list ++ t := by
  induction h with
  | refl => exact ⟨[], by simp⟩
  | tail _ hstep ih =>
    obtain ⟨t₁, h₁⟩ := ih
    obtain ⟨t₂, h₂⟩ := sysStep_list_extend hstep
    exact ⟨t₁ ++ t₂, by rw [h₂, h₁, List.append_assoc]⟩

theorem sysStep_wm_mono {σ σ' : Sys} (h : SysStep σ σ') (n : String) :
    wmOf σ.st n ≤ wmOf σ'.st n := by
  cases h with
  | insert v =>
    show wmOf σ.st n ≤ wmOf (σ.st.insert v) n
    unfold wmOf
    rw [insert_already_send]
  | snap m w d h => exact Nat.le_refl _
  | upd m w l h => exact wmOf_update_node_mono _ _ _ _ _
  | dropRpc p h => exact Nat.le_refl _
  | topo nb => exact Nat.le_refl _

theorem steps_wm_mono {σ σ' : Sys} (h : Steps σ σ') (n : String) :
    wmOf σ.st n ≤ wmOf σ'.st n := by
  induction h with
  | refl => exact Nat.le_refl _
  | tail _ hstep ih => exact Nat.le_trans ih (sysStep_wm_mono hstep n)

theorem updatePhase_messages_list (ro : String → Bool) (st : State)
    (snaps : List (String × Nat × Nat)) :
    (updatePhase ro st snaps).1.messages_list = st.messages_list := by
  induction snaps generalizing st with
  | nil => rfl
  | cons p rest ih =>
    obtain ⟨n, prev, len⟩ := p
    unfold updatePhase
    split
    · rw [ih, update_node_messages_list]
    · rfl

theorem updatePhase_getEntry_of_replyOk_false (ro : String → Bool) (st : State)
    (snaps : List (String × Nat × Nat)) (n : String) (hro : ro n = false) :
    getEntry (updatePhase ro st snaps).1.already_send n =
      getEntry st.already_send n := by
  induction snaps generalizing st with
  | nil => rfl
  | cons p rest ih =>
    obtain ⟨m, prev, len⟩ := p
    unfold updatePhase
    split
    · rename_i hm
      have hne : n ≠ m := fun he => by rw [he, hm] at hro; cases hro
      rw [ih, update_node_getEntry_ne st m n prev len hne]
    · rfl

theorem update_neighbours_st_cases (h : HState) (ns : List String)
    (sendOk replyOk : String → Bool) (h' : HState) (b : Bool)
    (hrun : update_neighbours h ns sendOk replyOk = some (h', b)) :
    h'.st = h.st ∨ ∃ snaps, h'.st = (updatePhase replyOk h.st snaps).1 := by
  unfold update_neighbours at hrun
  cases hsp : snapPhase h.st sendOk ns with
  | none => rw [hsp] at hrun; cases hrun
  | some p =>
    obtain ⟨snaps, ok⟩ := p
    rw [hsp] at hrun
    cases ok with
    | false =>
      simp only [Option.some.injEq, Prod.mk.injEq] at hrun
      exact Or.inl (by rw [← hrun.1])
    | true =>
      dsimp only at hrun
      cases hup : updatePhase replyOk h.st snaps with
      | mk st' ok2 =>
        rw [hup] at hrun
        cases ok2 <;> simp only [Option.some.injEq, Prod.mk.injEq] at hrun <;>
          exact Or.inr ⟨snaps, by rw [← hrun.1, hup]⟩

theorem take_node_set_neighbours (s : State) (nb : List String) (n : String) :
    State.take_node { s with neighbours := nb } n = s.take_node n := rfl

theorem update_node_set_neighbours (s : State) (nb : List String) (n : String)
    (p l : Nat) :
    State.update_node { s with neighbours := nb } n p l =
      { s.update_node n p l with neighbours := nb } := by
  unfold State.update_node
  dsimp only
  cases getEntry s.already_send n <;> dsimp only <;> split <;> rfl

theorem snapPhase_set_neighbours (s : State) (nb : List String)
    (so : String → Bool) (ns : List String) :
    snapPhase { s with neighbours := nb } so ns = snapPhase s so ns := by
  induction ns with
  | nil => rfl
  | cons n rest ih =>
    unfold snapPhase
    rw [take_node_set_neighbours]
    cases s.take_node n with
    | none => rfl
    | some p =>
      obtain ⟨prev, msgs⟩ := p
      dsimp only
      split
      · rw [ih]
      · rfl

theorem updatePhase_set_neighbours (ro : String → Bool) (s : State)
    (nb : List String) (snaps : List (String × Nat × Nat)) :
    updatePhase ro { s with neighbours := nb } snaps =
      ({ (updatePhase ro s snaps).1 with neighbours := nb },
       (updatePhase ro s snaps).2) := by
  induction snaps generalizing s with
  | nil => rfl
  | cons p rest ih =>
    obtain ⟨n, prev, len⟩ := p
    unfold updatePhase
    split
    · rw [update_node_set_neighbours, ih]
    · rfl

theorem update_neighbours_set_neighbours (g wch : Nat) (s : State)
    (nb : List String) (ns : List String) (so ro : String → Bool) :
    update_neighbours ⟨g, wch, { s with neighbours := nb }⟩ ns so ro =
      (update_neighbours ⟨g, wch, s⟩ ns so ro).map
        (fun hb => (⟨hb.1.gen, hb.1.watch, { hb.1.st with neighbours := nb }⟩, hb.2)) := by
  unfold update_neighbours
  dsimp only
  rw [snapPhase_set_neighbours]
  cases snapPhase s so ns with
  | none => rfl
  | some p =>
    obtain ⟨snaps, ok⟩ := p
    cases ok with
    | false => rfl
    | true =>
      dsimp only
      rw [updatePhase_set_neighbours]
      cases updatePhase ro s snaps with
      | mk st' ok2 => cases ok2 <;> rfl

/- ----------------------------------------------------------------- -/
/- Claim theorems.                                                   -/
/- ----------------------------------------------------------------- -/

/-- Claim C3: `update_node` sets neighbour `n`'s stored watermark to
`prev + len` exactly when the currently stored watermark (0 when no entry
exists) equals `prev`; when it differs the state — in particular the cursor
table — is left completely unchanged and no error is raised. -/
theorem c3_update_node_cas (s : State) (n : String) (prev len : Nat) :
    (wmOf s n = prev →
      wmOf (s.update_node n prev len) n = prev + len ∧
      (∀ m, m ≠ n → getEntry (s.update_node n prev len).already_send m =
        getEntry s.already_send m) ∧
      (s.update_node n prev len).messages = s.messages ∧
      (s.update_node n prev len).messages_list = s.messages_list ∧
      (s.update_node n prev len).neighbours = s.neighbours) ∧
    (wmOf s n ≠ prev → s.update_node n prev len = s) := by
  constructor
  · intro he
    refine ⟨?_, ?_, update_node_messages .., update_node_messages_list ..,
      update_node_neighbours ..⟩
    · rw [wmOf_update_node_self, if_pos he]
    · intro m hm
      exact update_node_getEntry_ne _ _ _ _ _ hm
  · intro hne
    unfold State.update_node
    cases hg : getEntry s.already_send n with
    | some v =>
      have hv : ¬v = prev := fun hc =>
        hne (by unfold wmOf; rw [hg]; exact hc)
      simp [hv]
    | none =>
      have hp : ¬prev = 0 := fun hc =>
        hne (by unfold wmOf; rw [hg, hc]; rfl)
      simp [hp]

/-- Witness for C3: with a stored watermark 2, an advance expecting 2 lands
at 5, and an advance expecting 1 is skipped without touching the state. -/
theorem c3_update_node_cas_witness :
    wmOf ((⟨[], [], [(nA, 2)], []⟩ : State).update_node nA 2 3) nA = 2 + 3 ∧
    (⟨[], [], [(nA, 2)], []⟩ : State).update_node nA 1 3 =
      ⟨[], [], [(nA, 2)], []⟩ :=
  ⟨((c3_update_node_cas ⟨[], [], [(nA, 2)], []⟩ nA 2 3).1 rfl).1,
   (c3_update_node_cas ⟨[], [], [(nA, 2)], []⟩ nA 1 3).2 (by decide)⟩

/-- Claim C5 (amended): on every reachable state the watermark never exceeds
the log length, so the slice in `take_node` never panics and returns the
suffix of the log from the watermark — the empty slice when the watermark
equals the length. (As universally stated the claim fails: see the
counterexample, where a watermark strictly beyond the length panics.) -/
theorem c5_slice_reachable (σ : Sys) (n : String) (hr : Reachable σ) :
    σ.st.take_node n =
      some (wmOf σ.st n, σ.st.messages_list.drop (wmOf σ.st n)) ∧
    (wmOf σ.st n = σ.st.messages_list.length →
      σ.st.take_node n = some (wmOf σ.st n, [])) := by
  have hle := (sysInv_reachable hr).2.2.1 n
  refine ⟨take_node_eq_of_le _ _ hle, fun he => ?_⟩
  rw [take_node_eq_of_le _ _ hle, he, List.drop_length]

/-- Witness for C5 at the initial state. -/
theorem c5_slice_reachable_witness :
    initState.take_node nA =
      some (wmOf initState nA, initState.messages_list.drop (wmOf initState nA)) ∧
    initState.take_node nA = some (wmOf initState nA, []) :=
  ⟨(c5_slice_reachable ⟨initState, []⟩ nA (Steps.refl _)).1,
   (c5_slice_reachable ⟨initState, []⟩ nA (Steps.refl _)).2 rfl⟩

/-- Counterexample for C5 as stated: with an empty log and a stored watermark
of 1 (beyond the length), the slice panics (`none`) instead of returning an
empty slice. -/
theorem c5_cex : (⟨[], [], [(nB, 1)], []⟩ : State).take_node nB = none := rfl

/-- Claim C6 (amended): the delta slice succeeds exactly when the watermark
is within the log, and the Topology handler succeeds exactly when the
supplied topology contains this node's id; all remaining core operations
(insert, read, transfer receipt, cursor advance) are total functions of the
embedding. -/
theorem c6_no_fatal_ops (s : State) (n nid : String)
    (topo : List (String × List String)) :
    ((s.take_node n).isSome ↔ wmOf s n ≤ s.messages_list.length) ∧
    ((processTopology s nid topo).isSome ↔ (getEntry topo nid).isSome) := by
  constructor
  · show (if wmOf s n ≤ s.messages_list.length
        then some (wmOf s n, s.messages_list.drop (wmOf s n))
        else none).isSome ↔ _
    split <;> rename_i hc <;> simp [hc]
  · unfold processTopology
    cases getEntry topo nid <;> simp

/-- Counterexample for C6 as stated: a Topology request whose map lacks this
node's id makes the handler panic (`unwrap` of `None`), so not every
operation is non-fatal for arbitrary input. -/
theorem c6_cex : processTopology initState nA [] = none := rfl

/-- Claim C7: insert is idempotent — inserting the same value twice yields
the same state, hence the same `take_all` result and the same arrival
position, as inserting it once. -/
theorem c7_idempotent_insert (s : State) (v : Nat) :
    (s.insert v).insert v = s.insert v ∧
    ((s.insert v).insert v).take_all = (s.insert v).take_all ∧
    posOf v ((s.insert v).insert v).messages_list =
      posOf v (s.insert v).messages_list := by
  have hmem : v ∈ (s.insert v).messages := by
    by_cases hv : v ∈ s.messages
    · rw [insert_of_mem hv]; exact hv
    · rw [insert_messages_of_not_mem hv]; exact List.mem_cons_self _ _
  have h1 : (s.insert v).insert v = s.insert v := insert_of_mem hmem
  exact ⟨h1, by rw [h1], by rw [h1]⟩

/-- Claim C8: on every reachable state the log has no duplicates and the
membership set holds exactly the logged values; moreover any further steps
only append to the log, so the position of a logged value never changes. -/
theorem c8_store_invariant (σ σ' : Sys) (hr : Reachable σ) (hs : Steps σ σ') :
    σ.st.messages_list.Nodup ∧
    (∀ v, v ∈ σ.st.messages ↔ v ∈ σ.st.messages_list) ∧
    (∃ t, σ'.st.messages_list = σ.st.messages_list ++ t) ∧
    (∀ v, v ∈ σ.st.messages_list →
      posOf v σ'.st.messages_list = posOf v σ.st.messages_list) := by
  have hinv := sysInv_reachable hr
  obtain ⟨t, ht⟩ := steps_list_extend hs
  refine ⟨hinv.1, hinv.2.1, ⟨t, ht⟩, ?_⟩
  intro v hv
  rw [ht, posOf_append_of_mem _ _ _ hv]

/-- Witness for C8: the initial state, stepped by one insert. -/
theorem c8_store_invariant_witness :
    initState.messages_list.Nodup ∧
    (∀ v, v ∈ initState.messages ↔ v ∈ initState.messages_list) ∧
    (∃ t, (initState.insert 5).messages_list = initState.messages_list ++ t) ∧
    (∀ v, v ∈ initState.messages_list →
      posOf v (initState.insert 5).messages_list =
        posOf v initState.messages_list) :=
  c8_store_invariant ⟨initState, []⟩ ⟨initState.insert 5, []⟩ (Steps.refl _)
    (Steps.tail (Steps.refl _) (SysStep.insert _ 5))

/-- Claim C9: on every reachable state each stored watermark is at most the
log length, and watermarks never decrease under any further steps. -/
theorem c9_cursor_bounds (σ σ' : Sys) (hr : Reachable σ) (hs : Steps σ σ') :
    (∀ n, wmOf σ'.st n ≤ σ'.st.messages_list.length) ∧
    (∀ n, wmOf σ.st n ≤ wmOf σ'.st n) :=
  ⟨fun n => (sysInv_steps hs (sysInv_reachable hr)).2.2.1 n,
   fun n => steps_wm_mono hs n⟩

/-- Witness for C9: the initial state, stepped by one insert. -/
theorem c9_cursor_bounds_witness :
    (∀ n, wmOf (initState.insert 7) n ≤ (initState.insert 7).messages_list.length) ∧
    (∀ n, wmOf initState n ≤ wmOf (initState.insert 7) n) :=
  c9_cursor_bounds ⟨initState, []⟩ ⟨initState.insert 7, []⟩ (Steps.refl _)
    (Steps.tail (Steps.refl _) (SysStep.insert _ 7))

/-- Claim C1 (amended): each invocation of `update_neighbours` increments the
atomic Generation Counter by exactly one at its start, regardless of the
outcome of the RPCs; the counter starts at 0; waiters (the watch channel)
are notified with the new generation only when every RPC has resolved
successfully, and on any failure the pass returns early leaving the watch
value unchanged. -/
theorem c1_round_generation (h : HState) (ns : List String)
    (sendOk replyOk : String → Bool) (h' : HState) (b : Bool)
    (hrun : update_neighbours h ns sendOk replyOk = some (h', b)) :
    h'.gen = h.gen + 1 ∧
    (b = true → h'.watch = h.gen + 1) ∧
    (b = false → h'.watch = h.watch) ∧
    initHandler.gen = 0 ∧ initHandler.watch = 0 := by
  unfold update_neighbours at hrun
  cases hsp : snapPhase h.st sendOk ns with
  | none => rw [hsp] at hrun; cases hrun
  | some p =>
    obtain ⟨snaps, ok⟩ := p
    rw [hsp] at hrun
    cases ok with
    | false =>
      simp only [Option.some.injEq, Prod.mk.injEq] at hrun
      obtain ⟨hh, hb⟩ := hrun
      subst hb
      rw [← hh]
      exact ⟨rfl, fun hc => Bool.noConfusion hc, fun hc => rfl, rfl, rfl⟩
    | true =>
      dsimp only at hrun
      cases hup : updatePhase replyOk h.st snaps with
      | mk st' ok2 =>
        rw [hup] at hrun
        cases ok2 with
        | false =>
          simp only [Option.some.injEq, Prod.mk.injEq] at hrun
          obtain ⟨hh, hb⟩ := hrun
          subst hb
          rw [← hh]
          exact ⟨rfl, fun hc => Bool.noConfusion hc, fun hc => rfl, rfl, rfl⟩
        | true =>
          simp only [Option.some.injEq, Prod.mk.injEq] at hrun
          obtain ⟨hh, hb⟩ := hrun
          subst hb
          rw [← hh]
          exact ⟨rfl, fun hc => rfl, fun hc => Bool.noConfusion hc, rfl, rfl⟩

/-- Witness for C1: a fully successful one-neighbour round bumps the counter
to 1 and notifies waiters with 1. -/
theorem c1_round_generation_witness :
    (⟨1, 1, ⟨[], [], [(nA, 0)], []⟩⟩ : HState).gen = initHandler.gen + 1 ∧
    (⟨1, 1, ⟨[], [], [(nA, 0)], []⟩⟩ : HState).watch = initHandler.gen + 1 :=
  ⟨(c1_round_generation initHandler [nA] (fun _ => true) (fun _ => true)
      ⟨1, 1, ⟨[], [], [(nA, 0)], []⟩⟩ true rfl).1,
   (c1_round_generation initHandler [nA] (fun _ => true) (fun _ => true)
      ⟨1, 1, ⟨[], [], [(nA, 0)], []⟩⟩ true rfl).2.1 rfl⟩

/-- Counterexample for C1 as stated: a round whose single transfer RPC fails
still resolves all its RPCs, yet the watch value stays 0 — waiters are NOT
notified — while the atomic counter was already incremented at the start of
the (uncompleted) round, not at the end of a completed one. -/
theorem c1_cex :
    update_neighbours initHandler [nB] (fun _ => true) (fun _ => false) =
      some (⟨initHandler.gen + 1, initHandler.watch, initState⟩, false) := rfl

/-- Claim C4: when the transfer RPC to neighbour `n` fails during a round,
`n`'s watermark is unchanged by that round, the delta computed for `n` after
any further inserts is the failed delta extended with the newly appended
values (a superset by index), and the round's error is swallowed by the
timer task rather than surfaced to any client. -/
theorem c4_retry_on_failure (h : HState) (ns : List String)
    (sendOk replyOk : String → Bool) (n : String) (w : Nat) (d : List Nat)
    (h' : HState) (b : Bool)
    (hro : replyOk n = false)
    (htn : h.st.take_node n = some (w, d))
    (hrun : update_neighbours h ns sendOk replyOk = some (h', b)) :
    wmOf h'.st n = wmOf h.st n ∧
    (∀ vs, ∃ extra, (insertAll h'.st vs).take_node n = some (w, d ++ extra)) ∧
    timerTick h ns sendOk replyOk = some h' := by
  obtain ⟨hw, hle, hd⟩ := take_node_some_elim _ _ _ _ htn
  have hst : getEntry h'.st.already_send n = getEntry h.st.already_send n ∧
      h'.st.messages_list = h.st.messages_list := by
    rcases update_neighbours_st_cases h ns sendOk replyOk h' b hrun with hc | ⟨snaps, hc⟩
    · rw [hc]; exact ⟨rfl, rfl⟩
    · rw [hc]
      exact ⟨updatePhase_getEntry_of_replyOk_false _ _ _ _ hro,
             updatePhase_messages_list _ _ _⟩
  have hwmeq : wmOf h'.st n = wmOf h.st n := by unfold wmOf; rw [hst.1]
  refine ⟨hwmeq, ?_, by unfold timerTick; rw [hrun]; rfl⟩
  intro vs
  obtain ⟨t, ht⟩ := insertAll_messages_list_extend h'.st vs
  refine ⟨t, ?_⟩
  have h2 : wmOf (insertAll h'.st vs) n = w := by
    unfold wmOf
    rw [insertAll_already_send, hst.1]
    exact hw.symm
  have hlist : (insertAll h'.st vs).messages_list = h.st.messages_list ++ t := by
    rw [ht, hst.2]
  have hle2 : wmOf (insertAll h'.st vs) n ≤ (insertAll h'.st vs).messages_list.length := by
    rw [h2, hlist, List.length_append]
    exact Nat.le_trans hle (Nat.le_add_right _ _)
  rw [take_node_eq_of_le _ _ hle2, h2, hlist,
    List.drop_append_of_le_length hle, ← hd]

/-- Witness for C4: with log [7], neighbour b's RPC fails while a's succeeds;
b's watermark stays 0, and after inserting 9 the next delta to b is
[7] ++ [9]. -/
theorem c4_retry_on_failure_witness :
    wmOf (⟨[7], [7], [(nA, 1)], []⟩ : State) nB =
      wmOf (⟨[7], [7], [], []⟩ : State) nB ∧
    (∃ extra, (insertAll (⟨[7], [7], [(nA, 1)], []⟩ : State) [9]).take_node nB =
      some (0, [7] ++ extra)) ∧
    timerTick ⟨0, 0, ⟨[7], [7], [], []⟩⟩ [nA, nB] (fun _ => true)
        (fun m => m == nA) =
      some ⟨1, 0, ⟨[7], [7], [(nA, 1)], []⟩⟩ :=
  have happ := c4_retry_on_failure ⟨0, 0, ⟨[7], [7], [], []⟩⟩ [nA, nB]
    (fun _ => true) (fun m => m == nA) nB 0 [7]
    ⟨1, 0, ⟨[7], [7], [(nA, 1)], []⟩⟩ false (by decide) rfl rfl
  ⟨happ.1, happ.2.1 [9], happ.2.2⟩

/-- Claim C10: the `State.neighbours` field written by the Topology handler
is dead state — every operation commutes with overwriting it: insert,
take_all, take_node, update_node and the propagation round (whose peer list
comes from the runtime, here the `ns` parameter) behave identically on the
remaining fields, and the Topology handler itself only writes `neighbours`. -/
theorem c10_neighbours_dead (s : State) (nb : List String) (v : Nat)
    (n nid : String) (p l g wch : Nat) (ns : List String)
    (so ro : String → Bool) (topo : List (String × List String)) :
    State.insert { s with neighbours := nb } v =
      { s.insert v with neighbours := nb } ∧
    State.take_all { s with neighbours := nb } = State.take_all s ∧
    State.take_node { s with neighbours := nb } n = s.take_node n ∧
    State.update_node { s with neighbours := nb } n p l =
      { s.update_node n p l with neighbours := nb } ∧
    update_neighbours ⟨g, wch, { s with neighbours := nb }⟩ ns so ro =
      (update_neighbours ⟨g, wch, s⟩ ns so ro).map
        (fun hb => (⟨hb.1.gen, hb.1.watch, { hb.1.st with neighbours := nb }⟩, hb.2)) ∧
    (processTopology s nid topo).map
        (fun s' => (s'.messages, s'.messages_list, s'.already_send)) =
      (getEntry topo nid).map
        (fun _ => (s.messages, s.messages_list, s.already_send)) := by
  refine ⟨?_, rfl, take_node_set_neighbours .., update_node_set_neighbours ..,
    update_neighbours_set_neighbours .., ?_⟩
  · by_cases hv : v ∈ s.messages <;> simp [State.insert, hv]
  · unfold processTopology
    cases getEntry topo nid <;> rfl

/-- Claim C2 (amended): `wait_update` returns only at an observed watch value
strictly greater than the baseline; and in the generation-side transition
system, any run that starts at the handler's generation read (which in the
code happens after the value insert) and ends with a watch value above that
baseline must contain a round start — i.e. a propagation attempt began after
the submission. -/
theorem c2_round_wait :
    (∀ old obs i, wait_update old obs = some i →
      ∃ hi : i < obs.length, old < obs.get ⟨i, hi⟩) ∧
    (∀ σ ls σ', GRun σ ls σ' → σ.watch ≤ σ.gen →
      (∀ r, σ.active = some r → r ≤ σ.gen) →
      σ.gen < σ'.watch → GLabel.roundStart ∈ ls) := by
  constructor
  · intro old obs
    induction obs with
    | nil => intro i h; exact Option.noConfusion h
    | cons v rest ih =>
      intro i h
      unfold wait_update at h
      split at h
      · rename_i hv
        injection h with h
        subst h
        exact ⟨Nat.succ_pos _, hv⟩
      · cases hj : wait_update old rest with
        | none => rw [hj] at h; exact Option.noConfusion h
        | some j =>
          rw [hj] at h
          dsimp only [Option.map] at h
          injection h with h
          subst h
          obtain ⟨hj', hlt⟩ := ih j hj
          exact ⟨Nat.succ_lt_succ hj', hlt⟩
  · intro σ ls σ' hrun
    induction hrun with
    | nil =>
      intro hw ha hgt
      exact absurd hgt (Nat.not_lt.mpr hw)
    | cons hstep hrest ih =>
      cases hstep with
      | start h =>
        intro hw ha hgt
        exact List.mem_cons_self _ _
      | ok h =>
        rename_i σ₁ r
        intro hw ha hgt
        exact List.mem_cons_of_mem _ (ih (ha r h) (fun r' hr => nomatch hr) hgt)
      | fail h =>
        intro hw ha hgt
        exact List.mem_cons_of_mem _ (ih hw (fun r' hr => nomatch hr) hgt)
      | submit =>
        intro hw ha hgt
        exact List.mem_cons_of_mem _ (ih hw ha hgt)
      | other =>
        intro hw ha hgt
        exact List.mem_cons_of_mem _ (ih hw ha hgt)

/-- Witness for C2: waiting with baseline 0 returns at the observed value 1,
and a start-then-complete run from generation 0 contains a round start. -/
theorem c2_round_wait_witness :
    (∃ hi : 0 < ([1] : List Nat).length, 0 < ([1] : List Nat).get ⟨0, hi⟩) ∧
    GLabel.roundStart ∈ [GLabel.roundStart, GLabel.roundOk] :=
  ⟨c2_round_wait.1 0 [1] 0 rfl,
   c2_round_wait.2 ⟨0, 0, none⟩ [GLabel.roundStart, GLabel.roundOk] ⟨1, 1, none⟩
     (GRun.cons (GStep.start rfl) (GRun.cons (GStep.ok rfl) (GRun.nil _)))
     (Nat.le_refl 0) (fun _ hr => nomatch hr) Nat.zero_lt_one⟩

/-- Counterexample for C2 as stated (handler reads the generation before
inserting): a round that starts between the read and the insert and
completes afterwards drives the watch value above the baseline — the wait
would return — yet no round start occurs after the submission. -/
theorem c2_cex :
    GRun ⟨0, 0, none⟩ [GLabel.roundStart, GLabel.submit, GLabel.roundOk]
      ⟨1, 1, none⟩ ∧
    (⟨0, 0, none⟩ : GState).gen < (⟨1, 1, none⟩ : GState).watch ∧
    hasStartAfterSubmit [GLabel.roundStart, GLabel.submit, GLabel.roundOk] =
      false :=
  ⟨GRun.cons (GStep.start rfl)
     (GRun.cons GStep.submit (GRun.cons (GStep.ok rfl) (GRun.nil _))),
   Nat.zero_lt_one, rfl⟩

end Broadcast
